import Mathlib

/-!
Verification development for the persistent task queue of the testground
daemon and the runtime-environment SDK (`sdk/runtime/runenv.go`).

The queue's own source (package `task`: `NewQueue`, `Push`, `Pop`, the
`Storage` adapter and the in-memory index) is not part of the excerpt; only
its test file is.  Its behaviour is therefore modelled from the
specification (spec.md §3-§7), as indicated on each definition.  Strings of
the Go code are modelled by Lean `String` (or `List Char` where character
level reasoning is needed); Go byte slices holding serialized tasks are
modelled by `String`.
-/

set_option autoImplicit false

namespace TG

/-- Modelled from the spec: the error taxonomy of §7 (NotFound, DecodeError,
EmptyQueue, StoreIOError) plus the rejection of an invalid task by `Push`
(§4.4 "requires a non-nil Task with non-empty ID"). -/
inductive QErr where
  | notFound
  | emptyQueue
  | storeFailure
  | invalidTask
  | decodeFail (bytes : String)
  deriving Repr, DecidableEq

/-- Modelled from the spec: a Task (§3) has a required unique non-empty `ID`;
the remaining caller-defined fields are opaque to the queue and are modelled
by a single opaque `data` field carried through serialization unchanged. -/
structure Task where
  ID : String
  data : String
  deriving Repr, DecidableEq

/-- Modelled from the spec: a TaskHandle (§3) is the in-memory projection
(ID, priority, insertion sequence) of a Task. -/
structure Handle where
  id : String
  priority : Nat
  seq : Nat
  deriving Repr, DecidableEq

/-- Association-list lookup: first entry with the given key, if any. -/
def alookup {κ α : Type} [DecidableEq κ] : List (κ × α) → κ → Option α
  | [], _ => none
  | (k', v) :: rest, k => if k' = k then some v else alookup rest k

/-- Association-list update: replace the value at the key if present,
otherwise append the new entry at the end. -/
def aset {κ α : Type} [DecidableEq κ] : List (κ × α) → κ → α → List (κ × α)
  | [], k, v => [(k, v)]
  | (k', v') :: rest, k, v =>
    if k' = k then (k, v) :: rest else (k', v') :: aset rest k v

/-- Association-list erase: drop the first entry with the given key. -/
def aerase {κ α : Type} [DecidableEq κ] : List (κ × α) → κ → List (κ × α)
  | [], _ => []
  | (k', v') :: rest, k => if k' = k then rest else (k', v') :: aerase rest k

/-- A store key is the compound key `(state-label, task ID)` of §3
("StateKey"); the byte-level scheme `label || separator || ID` realizes it
injectively, so the pair is the faithful model. -/
abbrev SKey := String × String

/-- Modelled from the spec: the Durable Store of §4.1, an ordered persistent
key-value layer.  `data` is the persisted contents; `failPut` models which
put operations fail with a StoreIOError (§7), so that error propagation is
observable in the model. -/
structure Store where
  data : List (SKey × String)
  failPut : SKey → Bool

/-- A store with no contents whose writes all succeed. -/
def emptyStore : Store := ⟨[], fun _ => false⟩

/-- Modelled from the spec: `put(key, bytes)` (§4.1); a failing put
propagates a StoreIOError and leaves the contents unchanged. -/
def Store.put (s : Store) (k : SKey) (v : String) : Except QErr Store :=
  if s.failPut k then .error .storeFailure
  else .ok { s with data := aset s.data k v }

/-- Modelled from the spec: `get(key) -> bytes | NotFound` (§4.1). -/
def Store.get (s : Store) (k : SKey) : Except QErr String :=
  match alookup s.data k with
  | none => .error .notFound
  | some v => .ok v

/-- Modelled from the spec: `delete(key)` (§4.1), idempotent — deleting an
absent key is not an error. -/
def Store.del (s : Store) (k : SKey) : Store :=
  { s with data := aerase s.data k }

/-- Lexicographic order on character lists by code point; models the byte
order of store keys (ASCII IDs in the byte-keyed store). -/
def lexLe : List Char → List Char → Bool
  | [], _ => true
  | _ :: _, [] => false
  | a :: as, b :: bs =>
    if a.toNat < b.toNat then true
    else if b.toNat < a.toNat then false
    else lexLe as bs

/-- Key order on strings: lexicographic by code point. -/
def strLe (a b : String) : Bool := lexLe a.data b.data

/-- Strict lexicographic order on character lists by code point. -/
def lexLt : List Char → List Char → Bool
  | [], [] => false
  | [], _ :: _ => true
  | _ :: _, [] => false
  | a :: as, b :: bs =>
    if a.toNat < b.toNat then true
    else if b.toNat < a.toNat then false
    else lexLt as bs

/-- Strict key order on strings: lexicographic by code point. -/
def strLt (a b : String) : Bool := lexLt a.data b.data

/-- Insert an entry into a list of store entries so that IDs stay in
nondecreasing order (insertion before the first entry with an ID not below
the new one, hence stable). -/
def insByID : SKey × String → List (SKey × String) → List (SKey × String)
  | e, [] => [e]
  | e, e' :: rest =>
    if strLe e.1.2 e'.1.2 then e :: e' :: rest else e' :: insByID e rest

/-- Insertion sort of store entries by task ID; models the ordered iteration
of the Durable Store (§4.1). -/
def sortByID : List (SKey × String) → List (SKey × String)
  | [] => []
  | e :: rest => insByID e (sortByID rest)

/-- Modelled from the spec: `scan(label)` of the Task Record Store (§4.2)
before decoding — all entries under the label, in key order. -/
def Store.scan (s : Store) (label : String) : List (SKey × String) :=
  sortByID (s.data.filter (fun e => e.1.1 = label))

/-- The "scheduled" state label (§3). -/
def prefixScheduled : String := "scheduled"

/-- Split a character list at the first occurrence of `sep`. -/
def splitFirst (sep : Char) : List Char → Option (List Char × List Char)
  | [] => none
  | c :: rest =>
    if c = sep then some ([], rest)
    else match splitFirst sep rest with
      | none => none
      | some (a, b) => some (c :: a, b)

/-- Modelled from the spec: the canonical serialized form of a Task (§6) —
an injective encoding of its ID and opaque payload. -/
def encTask (t : Task) : String := ⟨t.ID.data ++ '/' :: t.data.data⟩

/-- A decode strategy that is the exact inverse of `encTask` on tasks whose
ID contains no separator character, failing with a DecodeError otherwise
(the injected `bytes -> Task` capability of §4.2/§9). -/
def decTask (s : String) : Except QErr Task :=
  match splitFirst '/' s.data with
  | some (a, b) => .ok ⟨⟨a⟩, ⟨b⟩⟩
  | none => .error (.decodeFail s)

/-- Modelled from the spec: the Task Record Store's `get(label, id)` (§4.2):
read the raw bytes (NotFound if absent, distinct from a decode failure) and
apply the decode strategy. -/
def tsGet (s : Store) (dec : String → Except QErr Task) (label id : String) :
    Except QErr Task :=
  match s.get (label, id) with
  | .error e => .error e
  | .ok v => dec v

/-- Modelled from the spec: the Queue façade (§4.4) — a Task Record Store
bound to the durable store, the instance's fixed priority, the injected
decode strategy, the In-Memory Index of handles, and the monotone per-Push
sequence counter (§3). -/
structure Queue where
  store : Store
  priority : Nat
  dec : String → Except QErr Task
  index : List Handle
  seqc : Nat

/-- Modelled from the spec: `Len()` (§4.4) — the current Index size. -/
def Queue.len (q : Queue) : Nat := q.index.length

/-- `a` strictly precedes `b` in dequeue order: higher priority, or equal
priority and lower sequence (FIFO among equal priorities, §4.3). -/
def Handle.before (a b : Handle) : Bool :=
  b.priority < a.priority ∨ (a.priority = b.priority ∧ a.seq < b.seq)

/-- Modelled from the spec: pop-maximum of the In-Memory Index (§4.3) —
remove the highest-priority, lowest-sequence-on-tie handle; `none` on an
empty index. -/
def popIdx : List Handle → Option (Handle × List Handle)
  | [] => none
  | h :: rest =>
    match popIdx rest with
    | none => some (h, [])
    | some (h', rest') =>
      if h'.before h then some (h', h :: rest') else some (h, rest)

/-- Modelled from the spec: `Push(task)` (§4.4): requires a Task with
non-empty ID; persists the task under `("scheduled", task.ID)` and, only if
that write succeeds, inserts the handle `(task.ID, priority, nextSequence)`
into the Index; a failed write propagates the error with the Index
untouched. -/
def Queue.push (q : Queue) (t : Task) : Except QErr Unit × Queue :=
  if t.ID = "" then (.error .invalidTask, q)
  else
    match q.store.put (prefixScheduled, t.ID) (encTask t) with
    | .error e => (.error e, q)
    | .ok s' =>
      (.ok (),
        { q with
          store := s'
          index := q.index ++ [⟨t.ID, q.priority, q.seqc⟩]
          seqc := q.seqc + 1 })

/-- Modelled from the spec: `Pop()` (§4.4): EmptyQueue on an empty Index;
otherwise remove the best handle from the Index, look the Task up in the
store, delete the `("scheduled", ID)` record and return the Task.  The Index
removal happens before the durable delete, and a failure after the removal
leaves the handle removed (§7). -/
def Queue.pop (q : Queue) : Except QErr Task × Queue :=
  match popIdx q.index with
  | none => (.error .emptyQueue, q)
  | some (h, rest) =>
    let q1 := { q with index := rest }
    match q1.store.get (prefixScheduled, h.id) with
    | .error e => (.error e, q1)
    | .ok v =>
      match q1.dec v with
      | .error e => (.error e, q1)
      | .ok t => (.ok t, { q1 with store := q1.store.del (prefixScheduled, h.id) })

/-- Modelled from the spec: the recovery pass of `NewQueue` (§4.4) — decode
every scanned record in stored key order, building a handle for each with
the queue's priority and successive sequence numbers; the first decode
failure aborts the construction with that error. -/
def recover (dec : String → Except QErr Task) (p : Nat) :
    List (SKey × String) → Nat → Except QErr (List Handle)
  | [], _ => .ok []
  | (k, v) :: rest, seq =>
    match dec v with
    | .error e => .error e
    | .ok _ =>
      match recover dec p rest (seq + 1) with
      | .error e => .error e
      | .ok hs => .ok (⟨k.2, p, seq⟩ :: hs)

/-- Modelled from the spec: `NewQueue(store, priority, decode)` (§4.4) —
bind the store and decode strategy, scan label "scheduled" in stored key
order and insert a handle for every decoded Task into the Index before
returning; surface a recovery failure as the constructor's error, returning
no queue. -/
def newQueue (s : Store) (p : Nat) (dec : String → Except QErr Task) :
    Except QErr Queue :=
  match recover dec p (s.scan prefixScheduled) 0 with
  | .error e => .error e
  | .ok hs => .ok ⟨s, p, dec, hs, hs.length⟩

/-- The queue state after an operation (mirrors Go's in-place mutation). -/
def popState (q : Queue) : Queue := (q.pop).2

/-- Pop `n` times, collecting the successfully returned tasks in order. -/
def drain : Nat → Queue → List Task × Queue
  | 0, q => ([], q)
  | n + 1, q =>
    match q.pop with
    | (.ok t, q') => let (ts, q'') := drain n q'; (t :: ts, q'')
    | (.error _, q') => let (ts, q'') := drain n q'; (ts, q'')

/-- Push each task of the list in order, threading the queue state. -/
def pushAll (q : Queue) : List Task → Queue
  | [] => q
  | t :: ts => pushAll (q.push t).2 ts

/-! ## The runtime-environment SDK (`sdk/runtime/runenv.go`)

`TestInstanceParams` is a Go `map[string]string`; it is modelled as an
association list with unique keys, whose order stands for the map's
iteration order.  A Go panic is modelled by `none`; a normal return by
`some`. -/

/-- Model of `RunEnv.TestInstanceParams`. -/
abbrev Params := List (String × String)

/-- `RunEnv.IsParamSet`: whether the parameter is present. -/
def isParamSet (ps : Params) (name : String) : Bool :=
  (alookup ps name).isSome

/-- `RunEnv.StringParam`: looks the name up and panics (`none`) when it is
absent, its doc comment ("or empty string if not set") notwithstanding. -/
def stringParam (ps : Params) (name : String) : Option String :=
  match alookup ps name with
  | none => none
  | some v => some v

/-- Value of a digit string (`strconv.Atoi` core): `none` unless the list is
a non-empty string of decimal digits. -/
def digitsVal : List Char → Option Nat
  | [] => none
  | [c] => if c.isDigit then some (c.toNat - '0'.toNat) else none
  | c :: rest =>
    if c.isDigit then
      match digitsVal rest with
      | none => none
      | some n => some ((c.toNat - '0'.toNat) * 10 ^ rest.length + n)
    else none

/-- Model of Go `strconv.Atoi`: an optional sign followed by at least one
decimal digit (overflow is not modelled). -/
def atoiM (s : String) : Option Int :=
  match s.data with
  | '+' :: rest => (digitsVal rest).map Int.ofNat
  | '-' :: rest => (digitsVal rest).map (fun n => -(n : Int))
  | rest => (digitsVal rest).map Int.ofNat

/-- `RunEnv.IntParam`: panics (`none`) when the parameter is absent or when
`strconv.Atoi` fails on its value. -/
def intParam (ps : Params) (name : String) : Option Int :=
  match alookup ps name with
  | none => none
  | some v => atoiM v

/-- Model of `humanize.ParseBytes` (external library), reduced to what the
code under verification exercises: it fails on any string without a leading
decimal digit — in particular on the empty string a Go map lookup yields for
an absent key — and accepts a plain digit string as a byte count (the
library's unit suffixes are not modelled). -/
def parseBytesM (s : String) : Option Nat :=
  match s.data with
  | [] => none
  | c :: _ => if c.isDigit then digitsVal s.data else none

/-- `RunEnv.SizeParam`: reads the value with the map's zero-value default
(empty string when absent) and panics (`none`) when `humanize.ParseBytes`
rejects it. -/
def sizeParam (ps : Params) (name : String) : Option Nat :=
  parseBytesM ((alookup ps name).getD "")

/-- `RunEnv.BooleanParam`: reads the value with the zero-value default and
returns whether it is exactly the string "true"; never panics. -/
def booleanParam (ps : Params) (name : String) : Bool :=
  ((alookup ps name).getD "") == "true"

/-- `RunEnv.JSONParam`, parametrized by the behaviour of `json.Unmarshal`
at the caller's target type: panics (`none`) when the parameter is absent
or when unmarshalling fails. -/
def jsonParam {α : Type} (unmarshal : String → Option α) (ps : Params)
    (name : String) : Option α :=
  match alookup ps name with
  | none => none
  | some s => unmarshal s

/-! Character-level model of the Go string functions used by
`ToEnvVars`/`unpackParams`: a Go string is its list of characters. -/

/-- Model of Go `strings.Split` with a one-character separator: on the empty
string it returns one empty part, never an empty list. -/
def splitOnChar (sep : Char) : List Char → List (List Char)
  | [] => [[]]
  | c :: rest =>
    match splitOnChar sep rest with
    | [] => [[]]
    | g :: gs => if c = sep then [] :: g :: gs else (c :: g) :: gs

/-- Model of Go `strings.Join` with a one-character separator. -/
def joinChar (sep : Char) : List (List Char) → List Char
  | [] => []
  | [p] => p
  | p :: ps => p ++ sep :: joinChar sep ps

/-- One packed entry, `key=value`. -/
def partOf (kv : List Char × List Char) : List Char := kv.1 ++ '=' :: kv.2

/-- `packParams` (the closure inside `RunEnv.ToEnvVars`): each entry becomes
`key=value` and the entries are joined with `|`, in iteration order. -/
def packParams (m : List (List Char × List Char)) : List Char :=
  joinChar '|' (m.map partOf)

/-- One step of `unpackParams`: a part that splits into exactly two pieces
on `=` is entered into the map, every other part is silently dropped. -/
def unpackStep (acc : List (List Char × List Char)) (s : List Char) :
    List (List Char × List Char) :=
  match splitOnChar '=' s with
  | [k, v] => aset acc k v
  | _ => acc

/-- `unpackParams`: split the packed string on `|` and process every part
(later entries overwrite earlier ones). -/
def unpackParams (packed : List Char) : List (List Char × List Char) :=
  (splitOnChar '|' packed).foldl unpackStep []

/-! ## Association-list lemmas -/

theorem alookup_aset_self {κ α : Type} [DecidableEq κ] (l : List (κ × α))
    (k : κ) (v : α) : alookup (aset l k v) k = some v := by
  induction l with
  | nil => simp [aset, alookup]
  | cons e rest ih =>
    by_cases h : e.1 = k
    · simp [aset, h, alookup]
    · simp [aset, h, alookup, ih]

theorem alookup_aset_ne {κ α : Type} [DecidableEq κ] (l : List (κ × α))
    (k' k : κ) (v : α) (h : k' ≠ k) :
    alookup (aset l k' v) k = alookup l k := by
  induction l with
  | nil => simp [aset, alookup, h]
  | cons e rest ih =>
    by_cases he : e.1 = k'
    · simp [aset, he, alookup, h]
    · simp [aset, he, alookup, ih]

theorem alookup_aerase_ne {κ α : Type} [DecidableEq κ] (l : List (κ × α))
    (k' k : κ) (h : k' ≠ k) :
    alookup (aerase l k') k = alookup l k := by
  induction l with
  | nil => simp [aerase]
  | cons e rest ih =>
    by_cases he : e.1 = k'
    · simp [aerase, he, alookup, fun hh : k' = k => h hh]
    · simp [aerase, he, alookup, ih]

theorem alookup_eq_none_of_not_mem {κ α : Type} [DecidableEq κ]
    (l : List (κ × α)) (k : κ) (h : k ∉ l.map Prod.fst) :
    alookup l k = none := by
  induction l with
  | nil => rfl
  | cons a rest ih =>
    obtain ⟨k', v'⟩ := a
    simp only [List.map_cons, List.mem_cons] at h
    push_neg at h
    have hne : k' ≠ k := fun hh => h.1 hh.symm
    simp only [alookup, if_neg hne]
    exact ih h.2

theorem mem_aset {κ α : Type} [DecidableEq κ] (l : List (κ × α)) (k : κ)
    (v : α) (e : κ × α) (h : e ∈ aset l k v) : e ∈ l ∨ e = (k, v) := by
  induction l with
  | nil => simp only [aset, List.mem_singleton] at h; exact Or.inr h
  | cons a rest ih =>
    obtain ⟨k', v'⟩ := a
    by_cases hk : k' = k
    · simp only [aset, if_pos hk, List.mem_cons] at h
      rcases h with h1 | h1
      · exact Or.inr h1
      · exact Or.inl (List.mem_cons_of_mem _ h1)
    · simp only [aset, if_neg hk, List.mem_cons] at h
      rcases h with h1 | h1
      · exact Or.inl (by rw [h1]; exact List.mem_cons_self _ _)
      · rcases ih h1 with h2 | h2
        · exact Or.inl (List.mem_cons_of_mem _ h2)
        · exact Or.inr h2

theorem mem_aerase {κ α : Type} [DecidableEq κ] (l : List (κ × α)) (k : κ)
    (e : κ × α) (h : e ∈ aerase l k) : e ∈ l := by
  induction l with
  | nil => simp [aerase] at h
  | cons a rest ih =>
    obtain ⟨k', v'⟩ := a
    by_cases hk : k' = k
    · simp only [aerase, if_pos hk] at h
      exact List.mem_cons_of_mem _ h
    · simp only [aerase, if_neg hk, List.mem_cons] at h
      rcases h with h1 | h1
      · rw [h1]; exact List.mem_cons_self _ _
      · exact List.mem_cons_of_mem _ (ih h1)

theorem alookup_aerase_self {κ α : Type} [DecidableEq κ] (l : List (κ × α))
    (k : κ) (hnd : (l.map Prod.fst).Nodup) :
    alookup (aerase l k) k = none := by
  induction l with
  | nil => rfl
  | cons a rest ih =>
    obtain ⟨k', v'⟩ := a
    simp only [List.map_cons, List.nodup_cons] at hnd
    by_cases hk : k' = k
    · subst hk
      simp only [aerase, if_pos rfl]
      exact alookup_eq_none_of_not_mem rest k' hnd.1
    · simp only [aerase, if_neg hk, alookup, if_neg hk]
      exact ih hnd.2

theorem nodup_keys_aset {κ α : Type} [DecidableEq κ] (l : List (κ × α))
    (k : κ) (v : α) (hnd : (l.map Prod.fst).Nodup) :
    ((aset l k v).map Prod.fst).Nodup := by
  induction l with
  | nil => simp [aset]
  | cons a rest ih =>
    obtain ⟨k', v'⟩ := a
    simp only [List.map_cons, List.nodup_cons] at hnd
    by_cases hk : k' = k
    · subst hk
      simpa [aset] using hnd
    · simp only [aset, if_neg hk, List.map_cons, List.nodup_cons]
      refine ⟨fun hm => ?_, ih hnd.2⟩
      rcases List.mem_map.1 hm with ⟨e, he, hfst⟩
      rcases mem_aset rest k v e he with h2 | h2
      · exact hnd.1 (List.mem_map.2 ⟨e, h2, hfst⟩)
      · rw [h2] at hfst; exact hk hfst.symm

theorem nodup_keys_aerase {κ α : Type} [DecidableEq κ] (l : List (κ × α))
    (k : κ) (hnd : (l.map Prod.fst).Nodup) :
    ((aerase l k).map Prod.fst).Nodup := by
  induction l with
  | nil => simp [aerase]
  | cons a rest ih =>
    obtain ⟨k', v'⟩ := a
    simp only [List.map_cons, List.nodup_cons] at hnd
    by_cases hk : k' = k
    · simp only [aerase, if_pos hk]
      exact hnd.2
    · simp only [aerase, if_neg hk, List.map_cons, List.nodup_cons]
      refine ⟨fun hm => ?_, ih hnd.2⟩
      rcases List.mem_map.1 hm with ⟨e, he, hfst⟩
      exact hnd.1 (List.mem_map.2 ⟨e, mem_aerase rest k e he, hfst⟩)

/-! ## Claim theorems: error handling of the queue -/

/-- C4: for every Queue whose Index is empty, `Pop` fails with the EmptyQueue
condition and leaves the queue (Index and durable store) unchanged, so any
number of repeated `Pop` calls all return EmptyQueue with the state still
unchanged. -/
theorem c4_empty_pop_stable (q : Queue) (h : q.index = []) :
    ∀ n : Nat, (popState^[n] q).pop = (.error .emptyQueue, q) := by
  have hq : q.pop = (.error .emptyQueue, q) := by
    simp [Queue.pop, h, popIdx]
  intro n
  induction n with
  | zero => simpa using hq
  | succ n ih =>
    rw [Function.iterate_succ_apply']
    have hst : popState (popState^[n] q) = q := by
      simp [popState, ih]
    rw [hst]
    exact hq

/-- Witness for C4 at a concrete empty queue, three repeated pops. -/
theorem c4_empty_pop_stable_witness :
    (popState^[3] (⟨emptyStore, 1, decTask, [], 0⟩ : Queue)).pop =
      (.error .emptyQueue, (⟨emptyStore, 1, decTask, [], 0⟩ : Queue)) :=
  c4_empty_pop_stable ⟨emptyStore, 1, decTask, [], 0⟩ rfl 3

/-- C5: `Push` rejects a task with empty ID; on a durable-write failure it
returns the store's error with the queue — Index and `Len` included —
unchanged; on a successful write it installs the new store contents and
appends the handle `(task.ID, queue priority, next sequence)` to the Index,
advancing the sequence counter. -/
theorem c5_push_effects (q : Queue) (t : Task) :
    (t.ID = "" → q.push t = (.error .invalidTask, q)) ∧
    (∀ e : QErr, t.ID ≠ "" →
      q.store.put (prefixScheduled, t.ID) (encTask t) = .error e →
      q.push t = (.error e, q)) ∧
    (∀ s' : Store, t.ID ≠ "" →
      q.store.put (prefixScheduled, t.ID) (encTask t) = .ok s' →
      q.push t = (.ok (),
        { q with
          store := s'
          index := q.index ++ [⟨t.ID, q.priority, q.seqc⟩]
          seqc := q.seqc + 1 })) := by
  refine ⟨fun h => ?_, fun e hne hput => ?_, fun s' hne hput => ?_⟩
  · simp [Queue.push, h]
  · simp [Queue.push, hne, hput]
  · simp [Queue.push, hne, hput]

/-- Witness for C5 at a concrete queue and task (successful-write branch). -/
theorem c5_push_effects_witness :
    (⟨emptyStore, 1, decTask, [], 0⟩ : Queue).push ⟨"x", "y"⟩ =
      (.ok (),
        { (⟨emptyStore, 1, decTask, [], 0⟩ : Queue) with
          store := ⟨[((prefixScheduled, "x"), encTask ⟨"x", "y"⟩)], fun _ => false⟩
          index := [⟨"x", 1, 0⟩]
          seqc := 1 }) :=
  (c5_push_effects ⟨emptyStore, 1, decTask, [], 0⟩ ⟨"x", "y"⟩).2.2
    ⟨[((prefixScheduled, "x"), encTask ⟨"x", "y"⟩)], fun _ => false⟩
    (by decide) rfl

end TG

namespace TG

/-- Inversion of a successful `newQueue`: the queue is bound to the given
store, priority and decode strategy, and its Index is the recovery pass's
result. -/
theorem newQueue_ok (s : Store) (p : Nat) (dec : String → Except QErr Task)
    (q : Queue) (h : newQueue s p dec = .ok q) :
    q.store = s ∧ q.priority = p ∧ q.dec = dec ∧ q.seqc = q.index.length ∧
    recover dec p (s.scan prefixScheduled) 0 = .ok q.index := by
  unfold newQueue at h
  cases hr : recover dec p (s.scan prefixScheduled) 0 with
  | error e => rw [hr] at h; cases h
  | ok hs =>
    rw [hr] at h
    cases h
    exact ⟨rfl, rfl, rfl, rfl, rfl⟩

/-- C2: after `Push(t)` on a freshly constructed store-backed queue (with a
non-empty ID, a write that the store accepts, and the injected decode
strategy inverting the canonical encoding of `t`), a direct Task Record
Store lookup under `("scheduled", t.ID)` succeeds and decodes to a Task
whose ID equals `t.ID`. -/
theorem c2_push_persists (s : Store) (p : Nat)
    (dec : String → Except QErr Task) (q : Queue) (t : Task)
    (hq : newQueue s p dec = .ok q)
    (hid : t.ID ≠ "")
    (hput : s.failPut (prefixScheduled, t.ID) = false)
    (hdec : dec (encTask t) = .ok t) :
    ∃ t2 : Task,
      tsGet ((q.push t).2).store q.dec prefixScheduled t.ID = .ok t2 ∧
      t2.ID = t.ID := by
  obtain ⟨hs, -, hd, -, -⟩ := newQueue_ok s p dec q hq
  refine ⟨t, ?_, rfl⟩
  have hput' : q.store.put (prefixScheduled, t.ID) (encTask t) =
      .ok { q.store with
            data := aset q.store.data (prefixScheduled, t.ID) (encTask t) } := by
    simp [Store.put, hs, hput]
  simp [Queue.push, hid, hput', tsGet, Store.get, alookup_aset_self, hd, hdec]

/-- Witness for C2 at the test's concrete task ID on an empty store. -/
theorem c2_push_persists_witness :
    ∃ t2 : Task,
      tsGet ((Queue.push ⟨emptyStore, 1, decTask, [], 0⟩
          ⟨"bt4brhjpc98qra498sg0", ""⟩).2).store
        (Queue.dec ⟨emptyStore, 1, decTask, [], 0⟩)
        prefixScheduled "bt4brhjpc98qra498sg0" = .ok t2 ∧
      t2.ID = "bt4brhjpc98qra498sg0" :=
  c2_push_persists emptyStore 1 decTask ⟨emptyStore, 1, decTask, [], 0⟩
    ⟨"bt4brhjpc98qra498sg0", ""⟩ rfl (by decide) rfl rfl

/-- C9: for a parameter name absent from `TestInstanceParams`, the accessors
`StringParam`, `IntParam`, `SizeParam` and `JSONParam` panic (modelled by
`none`) rather than returning a zero value or an error — `StringParam`'s doc
comment notwithstanding — while `IsParamSet` returns `false` and
`BooleanParam` returns `false` without panicking; and `BooleanParam` returns
`true` exactly when the stored string is `"true"`. -/
theorem c9_absent_param_accessors (ps : Params) (name : String) :
    (alookup ps name = none →
      stringParam ps name = none ∧
      intParam ps name = none ∧
      sizeParam ps name = none ∧
      (∀ (α : Type) (u : String → Option α), jsonParam u ps name = none) ∧
      isParamSet ps name = false ∧
      booleanParam ps name = false) ∧
    (booleanParam ps name = true ↔ alookup ps name = some "true") := by
  constructor
  · intro h
    refine ⟨?_, ?_, ?_, ?_, ?_, ?_⟩
    · simp [stringParam, h]
    · simp [intParam, h]
    · simp [sizeParam, h, parseBytesM]
    · intro α u; simp [jsonParam, h]
    · simp [isParamSet, h]
    · simp [booleanParam, h]
  · cases hl : alookup ps name with
    | none => simp [booleanParam, hl]
    | some v => simp [booleanParam, hl, beq_iff_eq]

/-- Witness for C9 at a concrete parameter map missing the queried name. -/
theorem c9_absent_param_accessors_witness :
    stringParam [("a", "1")] "b" = none ∧
    intParam [("a", "1")] "b" = none ∧
    sizeParam [("a", "1")] "b" = none ∧
    (∀ (α : Type) (u : String → Option α), jsonParam u [("a", "1")] "b" = none) ∧
    isParamSet [("a", "1")] "b" = false ∧
    booleanParam [("a", "1")] "b" = false :=
  (c9_absent_param_accessors [("a", "1")] "b").1 rfl

end TG

namespace TG

/-- If every entry decodes, the recovery pass succeeds and produces one
handle per entry, in order, carrying the entry's ID, the queue priority and
consecutive sequence numbers. -/
theorem recover_all_ok (dec : String → Except QErr Task) (p : Nat) :
    ∀ (entries : List (SKey × String)) (n : Nat),
      (∀ e ∈ entries, ∃ t, dec e.2 = .ok t) →
      ∃ hs : List Handle, recover dec p entries n = .ok hs ∧
        hs.map Handle.id = entries.map (fun e => e.1.2) ∧
        hs.map Handle.priority = List.replicate entries.length p ∧
        hs.map Handle.seq = List.range' n entries.length := by
  intro entries
  induction entries with
  | nil => exact fun n _ => ⟨[], rfl, rfl, rfl, rfl⟩
  | cons e rest ih =>
    obtain ⟨k, v⟩ := e
    intro n h
    obtain ⟨t, ht⟩ := h (k, v) (List.mem_cons_self _ _)
    obtain ⟨hs, hrec, hid, hpr, hseq⟩ :=
      ih (n + 1) (fun e' he' => h e' (List.mem_cons_of_mem _ he'))
    refine ⟨⟨k.2, p, n⟩ :: hs, ?_, ?_, ?_, ?_⟩
    · simp [recover, ht, hrec]
    · simp [hid]
    · simp [hpr, List.replicate_succ]
    · simp [hseq, List.range'_succ]

/-- The recovery pass fails with the decode error of the first corrupt
record, every earlier record decoding fine. -/
theorem recover_first_error (dec : String → Except QErr Task) (p : Nat) :
    ∀ (pre : List (SKey × String)) (k : SKey) (v : String)
      (post : List (SKey × String)) (e : QErr) (n : Nat),
      (∀ e' ∈ pre, ∃ t, dec e'.2 = .ok t) →
      dec v = .error e →
      recover dec p (pre ++ (k, v) :: post) n = .error e := by
  intro pre
  induction pre with
  | nil => intro k v post e n _ hv; simp [recover, hv]
  | cons e' pre' ih =>
    obtain ⟨k', v'⟩ := e'
    intro k v post e n h hv
    obtain ⟨t, ht⟩ := h (k', v') (List.mem_cons_self _ _)
    have := ih k v post e (n + 1) (fun x hx => h x (List.mem_cons_of_mem _ hx)) hv
    simp [recover, ht, this]

/-- C7: `NewQueue(store, priority, decode)` scans every record under the
"scheduled" label in stored key order and, when each decodes, returns a
queue bound to the same store whose Index holds one handle per scanned
record, in key order, with the queue priority and consecutive sequence
numbers; when some record fails to decode (all earlier ones decoding), the
constructor returns exactly that decode error and no queue, leaving the
store as it was. -/
theorem c7_recovery_scan (s : Store) (p : Nat)
    (dec : String → Except QErr Task) :
    ((∀ e ∈ s.scan prefixScheduled, ∃ t, dec e.2 = .ok t) →
      ∃ q : Queue, newQueue s p dec = .ok q ∧ q.store = s ∧
        q.index.map Handle.id = (s.scan prefixScheduled).map (fun e => e.1.2) ∧
        q.index.map Handle.priority =
          List.replicate (s.scan prefixScheduled).length p ∧
        q.index.map Handle.seq = List.range' 0 (s.scan prefixScheduled).length) ∧
    (∀ (pre : List (SKey × String)) (k : SKey) (v : String)
        (post : List (SKey × String)) (e : QErr),
      s.scan prefixScheduled = pre ++ (k, v) :: post →
      (∀ e' ∈ pre, ∃ t, dec e'.2 = .ok t) →
      dec v = .error e →
      newQueue s p dec = .error e) := by
  constructor
  · intro h
    obtain ⟨hs, hrec, hid, hpr, hseq⟩ :=
      recover_all_ok dec p (s.scan prefixScheduled) 0 h
    exact ⟨⟨s, p, dec, hs, hs.length⟩, by simp [newQueue, hrec], rfl, hid, hpr, hseq⟩
  · intro pre k v post e hscan hpre hv
    have := recover_first_error dec p pre k v post e 0 hpre hv
    rw [newQueue, hscan, this]

/-- Witness for C7 on a one-record store whose record decodes. -/
theorem c7_recovery_scan_witness :
    ∃ q : Queue,
      newQueue ⟨[((prefixScheduled, "a"), "a/x")], fun _ => false⟩ 1 decTask =
        .ok q ∧
      q.store = ⟨[((prefixScheduled, "a"), "a/x")], fun _ => false⟩ ∧
      q.index.map Handle.id =
        ((⟨[((prefixScheduled, "a"), "a/x")], fun _ => false⟩ : Store).scan
          prefixScheduled).map (fun e => e.1.2) ∧
      q.index.map Handle.priority =
        List.replicate ((⟨[((prefixScheduled, "a"), "a/x")], fun _ => false⟩ :
          Store).scan prefixScheduled).length 1 ∧
      q.index.map Handle.seq =
        List.range' 0 ((⟨[((prefixScheduled, "a"), "a/x")], fun _ => false⟩ :
          Store).scan prefixScheduled).length :=
  (c7_recovery_scan ⟨[((prefixScheduled, "a"), "a/x")], fun _ => false⟩ 1
      decTask).1 (by
    intro e he
    have : e = ((prefixScheduled, "a"), "a/x") := by
      simpa [Store.scan, sortByID, insByID] using he
    rw [this]
    exact ⟨⟨"a", "x"⟩, rfl⟩)

end TG

namespace TG

/-- Representation predicate tying a queue state to the list of tasks still
queued, in dequeue order: the Index holds exactly their handles in order,
all at the queue's fixed priority, with strictly increasing sequence numbers
below the sequence counter; the store holds each task's record under
`("scheduled", ID)`; IDs are distinct and every record decodes back to its
task. -/
structure QRep (q : Queue) (ts : List Task) : Prop where
  prio : ∀ h ∈ q.index, h.priority = q.priority
  ids : q.index.map Handle.id = ts.map Task.ID
  seqs : List.Chain' (· < ·) (q.index.map Handle.seq)
  seqlt : ∀ h ∈ q.index, h.seq < q.seqc
  nodup : (ts.map Task.ID).Nodup
  records : ∀ t ∈ ts, alookup q.store.data (prefixScheduled, t.ID) = some (encTask t)
  decs : ∀ t ∈ ts, q.dec (encTask t) = .ok t

/-- On an index whose handles share one priority and whose sequence numbers
strictly increase, pop-maximum returns the first handle and keeps the rest
in order (FIFO). -/
theorem popIdx_fifo (p : Nat) :
    ∀ (h : Handle) (hs : List Handle),
      (∀ x ∈ h :: hs, x.priority = p) →
      List.Chain' (· < ·) ((h :: hs).map Handle.seq) →
      popIdx (h :: hs) = some (h, hs) := by
  intro h hs
  induction hs generalizing h with
  | nil => intro _ _; rfl
  | cons h' hs' ih =>
    intro hp hc
    have hrec : popIdx (h' :: hs') = some (h', hs') := by
      apply ih
      · intro x hx; exact hp x (List.mem_cons_of_mem _ hx)
      · exact (List.chain'_cons.1 hc).2
    have hseq : h.seq < h'.seq := (List.chain'_cons.1 hc).1
    have hb : h'.before h = false := by
      have hp1 : h.priority = p := hp h (List.mem_cons_self _ _)
      have hp2 : h'.priority = p := hp h' (List.mem_cons_of_mem _ (List.mem_cons_self _ _))
      simp [Handle.before, hp1, hp2]
      omega
    have hunfold : popIdx (h :: h' :: hs') =
        match popIdx (h' :: hs') with
        | none => some (h, [])
        | some (x, rest') =>
          if x.before h then some (x, h :: rest') else some (h, h' :: hs') := rfl
    rw [hunfold, hrec]
    simp [hb]

/-- Popping a queue that represents `t :: rest` returns `t` and leaves a
queue representing `rest`. -/
theorem pop_QRep_cons (q : Queue) (t : Task) (rest : List Task)
    (hr : QRep q (t :: rest)) :
    (q.pop).1 = .ok t ∧ QRep (q.pop).2 rest := by
  obtain ⟨h, hs, hidx⟩ : ∃ h hs, q.index = h :: hs := by
    cases hidx : q.index with
    | nil =>
      exfalso
      have := hr.ids
      rw [hidx] at this
      simp at this
    | cons h hs => exact ⟨h, hs, rfl⟩
  have hid : h.id = t.ID ∧ hs.map Handle.id = rest.map Task.ID := by
    have := hr.ids
    rw [hidx] at this
    simpa using this
  have hpop : popIdx q.index = some (h, hs) := by
    rw [hidx]
    apply popIdx_fifo q.priority
    · intro x hx
      exact hr.prio x (by rw [hidx]; exact hx)
    · have := hr.seqs
      rw [hidx] at this
      exact this
  have hget : alookup q.store.data (prefixScheduled, h.id) = some (encTask t) := by
    rw [hid.1]
    exact hr.records t (List.mem_cons_self _ _)
  have hdec : q.dec (encTask t) = .ok t := hr.decs t (List.mem_cons_self _ _)
  have hpope : q.pop =
      (.ok t, { q with index := hs, store := q.store.del (prefixScheduled, h.id) }) := by
    simp [Queue.pop, hpop, Store.get, hget, hdec]
  rw [hpope]
  have hnotin : t.ID ∉ rest.map Task.ID := by
    have := hr.nodup
    simp only [List.map_cons, List.nodup_cons] at this
    exact this.1
  refine ⟨rfl, ?_, ?_, ?_, ?_, ?_, ?_, ?_⟩
  · intro x hx
    exact hr.prio x (by rw [hidx]; exact List.mem_cons_of_mem _ hx)
  · exact hid.2
  · have := hr.seqs
    rw [hidx] at this
    exact this.tail
  · intro x hx
    exact hr.seqlt x (by rw [hidx]; exact List.mem_cons_of_mem _ hx)
  · have := hr.nodup
    simp only [List.map_cons, List.nodup_cons] at this
    exact this.2
  · intro t' ht'
    have hne : (prefixScheduled, t.ID) ≠ (prefixScheduled, t'.ID) := by
      intro hcontra
      apply hnotin
      have : t.ID = t'.ID := congrArg Prod.snd hcontra
      rw [this]
      exact List.mem_map.2 ⟨t', ht', rfl⟩
    show alookup (aerase q.store.data (prefixScheduled, h.id)) (prefixScheduled, t'.ID) =
      some (encTask t')
    rw [hid.1, alookup_aerase_ne _ _ _ hne]
    exact hr.records t' (List.mem_cons_of_mem _ ht')
  · intro t' ht'
    exact hr.decs t' (List.mem_cons_of_mem _ ht')

/-- The results of `n` successive pops, in order. -/
def pops : Nat → Queue → List (Except QErr Task)
  | 0, _ => []
  | n + 1, q => (q.pop).1 :: pops n (q.pop).2

/-- A queue representing `ts` has `Len()` equal to the number of queued
tasks. -/
theorem len_QRep (q : Queue) (ts : List Task) (hr : QRep q ts) :
    q.len = ts.length := by
  have := congrArg List.length hr.ids
  simpa [Queue.len] using this

/-- A queue representing `ts` pops exactly the tasks of `ts`, in order, and
then reports EmptyQueue. -/
theorem pops_QRep : ∀ (ts : List Task) (q : Queue), QRep q ts →
    pops (ts.length + 1) q = ts.map Except.ok ++ [.error .emptyQueue] := by
  intro ts
  induction ts with
  | nil =>
    intro q hr
    have hidx : q.index = [] := by
      have := hr.ids
      simpa using this
    simp [pops, Queue.pop, hidx, popIdx]
  | cons t rest ih =>
    intro q hr
    obtain ⟨h1, h2⟩ := pop_QRep_cons q t rest hr
    have hstep : pops ((t :: rest).length + 1) q =
        (q.pop).1 :: pops (rest.length + 1) (q.pop).2 := rfl
    rw [hstep, h1, ih (q.pop).2 h2]
    simp

end TG

namespace TG

/-- `Push` never changes the queue's priority, decode strategy or the
store's failure behaviour, in any of its branches. -/
theorem push_preserves (q : Queue) (t : Task) :
    (q.push t).2.priority = q.priority ∧ (q.push t).2.dec = q.dec ∧
    (q.push t).2.store.failPut = q.store.failPut := by
  by_cases h : t.ID = ""
  · simp [Queue.push, h]
  · by_cases hf : q.store.failPut (prefixScheduled, t.ID) = true
    · simp [Queue.push, h, Store.put, hf]
    · simp [Queue.push, h, Store.put, hf]

/-- A successful `Push` of a fresh, decodable task extends the represented
task list at the back. -/
theorem push_QRep (q : Queue) (ts : List Task) (t : Task) (hr : QRep q ts)
    (hid : t.ID ≠ "")
    (hfp : q.store.failPut (prefixScheduled, t.ID) = false)
    (hdec : q.dec (encTask t) = .ok t)
    (hfresh : t.ID ∉ ts.map Task.ID) :
    QRep (q.push t).2 (ts ++ [t]) := by
  have hpush : q.push t = (.ok (),
      { q with
        store := { q.store with
          data := aset q.store.data (prefixScheduled, t.ID) (encTask t) }
        index := q.index ++ [⟨t.ID, q.priority, q.seqc⟩]
        seqc := q.seqc + 1 }) := by
    simp [Queue.push, hid, Store.put, hfp]
  rw [hpush]
  refine ⟨?_, ?_, ?_, ?_, ?_, ?_, ?_⟩
  · intro h hh
    simp only [List.mem_append, List.mem_singleton] at hh
    rcases hh with hh | hh
    · exact hr.prio h hh
    · rw [hh]
  · simp [hr.ids]
  · show List.Chain' (· < ·)
      ((q.index ++ [Handle.mk t.ID q.priority q.seqc]).map Handle.seq)
    rw [List.map_append]
    rw [List.chain'_append]
    refine ⟨hr.seqs, by simp, ?_⟩
    intro x hx y hy
    simp only [List.map_cons, List.map_nil, List.head?_cons, Option.mem_def,
      Option.some.injEq] at hy
    subst hy
    rcases List.mem_getLast?_eq_getLast hx with ⟨hne, rfl⟩
    have hmem := List.getLast_mem hne
    rcases List.mem_map.1 hmem with ⟨h, hh, hseq⟩
    rw [← hseq]
    exact hr.seqlt h hh
  · intro h hh
    simp only [List.mem_append, List.mem_singleton] at hh
    rcases hh with hh | hh
    · exact Nat.lt_succ_of_lt (hr.seqlt h hh)
    · rw [hh]; exact Nat.lt_succ_self _
  · simp only [List.map_append, List.map_cons, List.map_nil]
    rw [List.nodup_append]
    refine ⟨hr.nodup, by simp, ?_⟩
    intro a ha hb
    simp only [List.mem_cons, List.not_mem_nil, or_false] at hb
    subst hb
    exact hfresh ha
  · intro t' ht'
    simp only [List.mem_append, List.mem_singleton] at ht'
    rcases ht' with ht' | ht'
    · have hne : (prefixScheduled, t.ID) ≠ (prefixScheduled, t'.ID) := by
        intro hcontra
        apply hfresh
        have : t.ID = t'.ID := congrArg Prod.snd hcontra
        rw [this]
        exact List.mem_map.2 ⟨t', ht', rfl⟩
      show alookup (aset q.store.data (prefixScheduled, t.ID) (encTask t))
        (prefixScheduled, t'.ID) = some (encTask t')
      rw [alookup_aset_ne _ _ _ _ hne]
      exact hr.records t' ht'
    · subst ht'
      exact alookup_aset_self _ _ _
  · intro t' ht'
    simp only [List.mem_append, List.mem_singleton] at ht'
    rcases ht' with ht' | ht'
    · exact hr.decs t' ht'
    · subst ht'; exact hdec

/-- Pushing a list of fresh, decodable tasks through a queue representing
`acc` yields a queue representing `acc ++ ts`. -/
theorem QRep_pushAll :
    ∀ (ts acc : List Task) (q : Queue), QRep q acc →
      (∀ t ∈ ts, t.ID ≠ "") →
      (∀ t ∈ ts, q.store.failPut (prefixScheduled, t.ID) = false) →
      (∀ t ∈ ts, q.dec (encTask t) = .ok t) →
      ((acc ++ ts).map Task.ID).Nodup →
      QRep (pushAll q ts) (acc ++ ts) := by
  intro ts
  induction ts with
  | nil =>
    intro acc q hr _ _ _ _
    simpa [pushAll] using hr
  | cons t rest ih =>
    intro acc q hr hne hfp hdec hnd
    have hfresh : t.ID ∉ acc.map Task.ID := by
      intro hmem
      rw [List.map_append, List.nodup_append] at hnd
      exact hnd.2.2 hmem (by simp)
    have hstep : QRep (q.push t).2 (acc ++ [t]) :=
      push_QRep q acc t hr (hne t (List.mem_cons_self _ _))
        (hfp t (List.mem_cons_self _ _)) (hdec t (List.mem_cons_self _ _)) hfresh
    obtain ⟨-, hd, hf⟩ := push_preserves q t
    have : QRep (pushAll (q.push t).2 rest) ((acc ++ [t]) ++ rest) := by
      apply ih (acc ++ [t]) (q.push t).2 hstep
      · intro t' ht'; exact hne t' (List.mem_cons_of_mem _ ht')
      · intro t' ht'
        rw [hf]
        exact hfp t' (List.mem_cons_of_mem _ ht')
      · intro t' ht'
        rw [hd]
        exact hdec t' (List.mem_cons_of_mem _ ht')
      · simpa using hnd
    have hassoc : (acc ++ [t]) ++ rest = acc ++ t :: rest := by simp
    rw [hassoc] at this
    exact this

/-- C3: within one queue instance of a single fixed priority, Pop is FIFO in
Push order: pushing distinct decodable tasks A, B, C through a fresh queue
yields Pop results A, then B, then C (priority ties broken by the increasing
per-Push sequence), and the next Pop after the last queued task reports
EmptyQueue. -/
theorem c3_fifo_order (p : Nat) (dec : String → Except QErr Task)
    (A B C : Task)
    (hA : A.ID ≠ "") (hB : B.ID ≠ "") (hC : C.ID ≠ "")
    (hdA : dec (encTask A) = .ok A) (hdB : dec (encTask B) = .ok B)
    (hdC : dec (encTask C) = .ok C)
    (hnd : ([A, B, C].map Task.ID).Nodup) :
    pops 4 (pushAll ⟨emptyStore, p, dec, [], 0⟩ [A, B, C]) =
      [.ok A, .ok B, .ok C, .error .emptyQueue] := by
  have h0 : QRep ⟨emptyStore, p, dec, [], 0⟩ [] := by
    refine ⟨?_, rfl, ?_, ?_, ?_, ?_, ?_⟩ <;> simp [emptyStore]
  have hrep : QRep (pushAll ⟨emptyStore, p, dec, [], 0⟩ [A, B, C]) [A, B, C] := by
    have := QRep_pushAll [A, B, C] [] ⟨emptyStore, p, dec, [], 0⟩ h0
      (by intro t ht; simp only [List.mem_cons, List.not_mem_nil, or_false] at ht
          rcases ht with rfl | rfl | rfl <;> assumption)
      (by intro t _; rfl)
      (by intro t ht; simp only [List.mem_cons, List.not_mem_nil, or_false] at ht
          rcases ht with rfl | rfl | rfl <;> assumption)
      (by simpa using hnd)
    simpa using this
  have := pops_QRep [A, B, C] _ hrep
  simpa using this

/-- Witness for C3 at three concrete distinct tasks. -/
theorem c3_fifo_order_witness :
    pops 4 (pushAll ⟨emptyStore, 7, decTask, [], 0⟩
        [⟨"a", "1"⟩, ⟨"b", "2"⟩, ⟨"c", "3"⟩]) =
      [.ok ⟨"a", "1"⟩, .ok ⟨"b", "2"⟩, .ok ⟨"c", "3"⟩, .error .emptyQueue] :=
  c3_fifo_order 7 decTask ⟨"a", "1"⟩ ⟨"b", "2"⟩ ⟨"c", "3"⟩
    (by decide) (by decide) (by decide) rfl rfl rfl (by decide)

end TG

namespace TG

/-- Insertion of a task into a list kept sorted by ID, with the same
comparison as the store's key order. -/
def insTaskByID : Task → List Task → List Task
  | t, [] => [t]
  | t, t' :: rest =>
    if strLe t.ID t'.ID then t :: t' :: rest else t' :: insTaskByID t rest

/-- The tasks reordered by ascending ID — the stored key order of their
records. -/
def sortTasksByID : List Task → List Task
  | [] => []
  | t :: rest => insTaskByID t (sortTasksByID rest)

theorem insTaskByID_perm (t : Task) :
    ∀ l : List Task, List.Perm (insTaskByID t l) (t :: l) := by
  intro l
  induction l with
  | nil => rfl
  | cons t' rest ih =>
    by_cases h : strLe t.ID t'.ID
    · simp [insTaskByID, h]
    · simp only [insTaskByID, h, if_false]
      exact (ih.cons t').trans (List.Perm.swap t t' rest)

theorem sortTasksByID_perm : ∀ l : List Task, List.Perm (sortTasksByID l) l := by
  intro l
  induction l with
  | nil => rfl
  | cons t rest ih =>
    exact (insTaskByID_perm t (sortTasksByID rest)).trans (ih.cons t)

/-- The record entry a push writes for a task. -/
def entryOf (t : Task) : SKey × String := ((prefixScheduled, t.ID), encTask t)

/-- Sorting record entries by ID agrees with sorting the underlying tasks by
ID: the comparison key is the same. -/
theorem insByID_map_entryOf (t : Task) :
    ∀ l : List Task, insByID (entryOf t) (l.map entryOf) =
      (insTaskByID t l).map entryOf := by
  intro l
  induction l with
  | nil => rfl
  | cons t' rest ih =>
    simp only [List.map_cons]
    by_cases h : strLe t.ID t'.ID
    · rw [show insByID (entryOf t) (entryOf t' :: List.map entryOf rest) =
          entryOf t :: entryOf t' :: List.map entryOf rest from by
        simp [insByID, entryOf, h]]
      simp [insTaskByID, h]
    · rw [show insByID (entryOf t) (entryOf t' :: List.map entryOf rest) =
          entryOf t' :: insByID (entryOf t) (List.map entryOf rest) from by
        simp [insByID, entryOf, h]]
      rw [ih]
      simp [insTaskByID, h]

theorem sortByID_map_entryOf :
    ∀ l : List Task, sortByID (l.map entryOf) = (sortTasksByID l).map entryOf := by
  intro l
  induction l with
  | nil => rfl
  | cons t rest ih =>
    simp only [List.map_cons, sortByID, sortTasksByID, ih]
    exact insByID_map_entryOf t (sortTasksByID rest)

theorem chain'_lt_range' : ∀ (len n : Nat), List.Chain' (· < ·) (List.range' n len)
  | 0, _ => by simp
  | 1, n => by simp [List.range'_succ]
  | len + 2, n => by
    rw [List.range'_succ]
    refine List.chain'_cons'.2 ⟨?_, chain'_lt_range' (len + 1) (n + 1)⟩
    intro y hy
    rw [List.range'_succ] at hy
    simp only [List.head?_cons, Option.mem_def, Option.some.injEq] at hy
    omega

/-- Looking a task's key up among the entries of tasks with distinct IDs
finds that task's record. -/
theorem alookup_entries :
    ∀ (ts : List Task), (ts.map Task.ID).Nodup → ∀ t ∈ ts,
      alookup (ts.map entryOf) (prefixScheduled, t.ID) = some (encTask t) := by
  intro ts
  induction ts with
  | nil => intro _ t ht; cases ht
  | cons t' rest ih =>
    intro hnd t ht
    simp only [List.map_cons, List.nodup_cons] at hnd
    rcases List.mem_cons.1 ht with rfl | ht'
    · simp [alookup, entryOf]
    · have hne : (prefixScheduled, t'.ID) ≠ (prefixScheduled, t.ID) := by
        intro hcontra
        apply hnd.1
        have : t'.ID = t.ID := congrArg Prod.snd hcontra
        rw [this]
        exact List.mem_map.2 ⟨t, ht', rfl⟩
      simp only [List.map_cons, entryOf, alookup, if_neg hne]
      exact ih hnd.2 t ht'

theorem alookup_append_eq {κ α : Type} [DecidableEq κ]
    (l1 l2 : List (κ × α)) (k : κ) (h1 : alookup l1 k = none) :
    alookup (l1 ++ l2) k = alookup l2 k := by
  induction l1 with
  | nil => rfl
  | cons a rest ih =>
    obtain ⟨k', v'⟩ := a
    by_cases hk : k' = k
    · simp [alookup, hk] at h1
    · simp only [alookup, if_neg hk] at h1
      simp only [List.cons_append, alookup, if_neg hk]
      exact ih h1

theorem aset_of_lookup_none {κ α : Type} [DecidableEq κ] :
    ∀ (l : List (κ × α)) (k : κ) (v : α), alookup l k = none →
      aset l k v = l ++ [(k, v)] := by
  intro l
  induction l with
  | nil => intro k v _; rfl
  | cons a rest ih =>
    obtain ⟨k', v'⟩ := a
    intro k v h
    by_cases hk : k' = k
    · simp [alookup, hk] at h
    · simp only [alookup, if_neg hk] at h
      simp only [aset, if_neg hk, List.cons_append]
      rw [ih k v h]

/-- Pushing fresh, accepted tasks appends their records to the store in push
order and does not change the failure behaviour. -/
theorem pushAll_store_data :
    ∀ (ts : List Task) (q : Queue),
      (∀ t ∈ ts, t.ID ≠ "") →
      (∀ t ∈ ts, q.store.failPut (prefixScheduled, t.ID) = false) →
      (∀ t ∈ ts, alookup q.store.data (prefixScheduled, t.ID) = none) →
      (ts.map Task.ID).Nodup →
      (pushAll q ts).store.data = q.store.data ++ ts.map entryOf ∧
      (pushAll q ts).store.failPut = q.store.failPut := by
  intro ts
  induction ts with
  | nil => intro q _ _ _ _; simp [pushAll]
  | cons t rest ih =>
    intro q hne hfp hab hnd
    simp only [List.map_cons, List.nodup_cons] at hnd
    have hid := hne t (List.mem_cons_self _ _)
    have hpush : q.push t = (.ok (),
        { q with
          store := { q.store with
            data := aset q.store.data (prefixScheduled, t.ID) (encTask t) }
          index := q.index ++ [⟨t.ID, q.priority, q.seqc⟩]
          seqc := q.seqc + 1 }) := by
      simp [Queue.push, hid, Store.put, hfp t (List.mem_cons_self _ _)]
    have hdata : (q.push t).2.store.data = q.store.data ++ [entryOf t] := by
      rw [hpush]
      exact aset_of_lookup_none _ _ _ (hab t (List.mem_cons_self _ _))
    have hfput : (q.push t).2.store.failPut = q.store.failPut :=
      (push_preserves q t).2.2
    have hstep := ih (q.push t).2
      (fun t' ht' => hne t' (List.mem_cons_of_mem _ ht'))
      (fun t' ht' => by rw [hfput]; exact hfp t' (List.mem_cons_of_mem _ ht'))
      (fun t' ht' => by
        rw [hdata]
        have hne' : (prefixScheduled, t.ID) ≠ (prefixScheduled, t'.ID) := by
          intro hcontra
          apply hnd.1
          have : t.ID = t'.ID := congrArg Prod.snd hcontra
          rw [this]
          exact List.mem_map.2 ⟨t', ht', rfl⟩
        rw [alookup_append_eq _ _ _ (hab t' (List.mem_cons_of_mem _ ht'))]
        simp [alookup, entryOf, hne'])
      hnd.2
    have hpa : pushAll q (t :: rest) = pushAll (q.push t).2 rest := rfl
    rw [hpa, hstep.1, hdata]
    refine ⟨by simp, ?_⟩
    rw [hstep.2, hfput]

end TG

namespace TG

/-- A store holding exactly the records of `ts` scans, under "scheduled", to
those records in stored key order (ascending ID). -/
theorem scan_entries (s : Store) (ts : List Task) (h : s.data = ts.map entryOf) :
    s.scan prefixScheduled = (sortTasksByID ts).map entryOf := by
  unfold Store.scan
  rw [h]
  have hfil : (ts.map entryOf).filter (fun e => e.1.1 = prefixScheduled) =
      ts.map entryOf := by
    apply List.filter_eq_self.2
    intro e he
    rcases List.mem_map.1 he with ⟨t, _, rfl⟩
    simp [entryOf]
  rw [hfil, sortByID_map_entryOf]

/-- C1 (amended): pushing `N` tasks with distinct non-empty IDs through `q1`
and constructing `q2` over the same underlying store yields
`q2.Len() == N`, and successive `q2.Pop()` calls return tasks with all field
values identical to the tasks originally pushed — but in stored key order of
their IDs (ascending), which coincides with the original insertion order
exactly when the IDs were pushed in ascending order; after the last task,
Pop reports EmptyQueue. -/
theorem c1_recovery_keyorder (p : Nat) (dec : String → Except QErr Task)
    (ts : List Task)
    (hne : ∀ t ∈ ts, t.ID ≠ "")
    (hdec : ∀ t ∈ ts, dec (encTask t) = .ok t)
    (hnd : (ts.map Task.ID).Nodup)
    (q1 q2 : Queue)
    (hq1 : newQueue emptyStore p dec = .ok q1)
    (hq2 : newQueue (pushAll q1 ts).store p dec = .ok q2) :
    q2.len = ts.length ∧
    pops (ts.length + 1) q2 =
      (sortTasksByID ts).map Except.ok ++ [.error .emptyQueue] := by
  have hq1' : q1 = ⟨emptyStore, p, dec, [], 0⟩ := by
    have hfresh : newQueue emptyStore p dec =
        .ok (⟨emptyStore, p, dec, [], 0⟩ : Queue) := rfl
    rw [hfresh] at hq1
    cases hq1
    rfl
  subst hq1'
  obtain ⟨hdata, hfput⟩ := pushAll_store_data ts ⟨emptyStore, p, dec, [], 0⟩ hne
    (fun t _ => rfl) (fun t _ => rfl) hnd
  have hdata' : (pushAll ⟨emptyStore, p, dec, [], 0⟩ ts).store.data =
      ts.map entryOf := by
    rw [hdata]
    rfl
  have hscan : (pushAll (⟨emptyStore, p, dec, [], 0⟩ : Queue) ts).store.scan
      prefixScheduled = (sortTasksByID ts).map entryOf :=
    scan_entries _ ts hdata'
  obtain ⟨hs2, hp2, hd2, hseqc2, hrec2⟩ := newQueue_ok _ p dec q2 hq2
  have hdecall : ∀ e ∈ (pushAll (⟨emptyStore, p, dec, [], 0⟩ : Queue) ts).store.scan
      prefixScheduled, ∃ t, dec e.2 = .ok t := by
    rw [hscan]
    intro e he
    rcases List.mem_map.1 he with ⟨t, ht, rfl⟩
    exact ⟨t, hdec t ((sortTasksByID_perm ts).subset ht)⟩
  obtain ⟨hs, hrec, hid, hpr, hseq⟩ := recover_all_ok dec p _ 0 hdecall
  have hidx : q2.index = hs := by
    rw [hrec] at hrec2
    cases hrec2
    rfl
  have hlen : hs.length = (sortTasksByID ts).length := by
    have := congrArg List.length hid
    rw [hscan] at this
    simpa using this
  have hrep : QRep q2 (sortTasksByID ts) := by
    refine ⟨?_, ?_, ?_, ?_, ?_, ?_, ?_⟩
    · intro h hh
      rw [hidx] at hh
      have hmem : h.priority ∈ hs.map Handle.priority := List.mem_map.2 ⟨h, hh, rfl⟩
      rw [hpr] at hmem
      have := List.eq_of_mem_replicate hmem
      rw [this, hp2]
    · rw [hidx, hid, hscan]
      simp [entryOf]
    · rw [hidx, hseq]
      exact chain'_lt_range' _ 0
    · intro h hh
      rw [hidx] at hh
      have hmem : h.seq ∈ hs.map Handle.seq := List.mem_map.2 ⟨h, hh, rfl⟩
      rw [hseq] at hmem
      have hlt := List.mem_range'_1.1 hmem
      have hsl : q2.seqc = hs.length := by rw [hseqc2, hidx]
      rw [hscan] at hlt
      simp only [List.length_map] at hlt
      rw [hsl, hlen]
      omega
    · have hpm : List.Perm ((sortTasksByID ts).map Task.ID) (ts.map Task.ID) :=
        (sortTasksByID_perm ts).map _
      exact hpm.nodup_iff.2 hnd
    · intro t ht
      have hmem : t ∈ ts := (sortTasksByID_perm ts).subset ht
      show alookup q2.store.data (prefixScheduled, t.ID) = some (encTask t)
      rw [hs2, hdata']
      exact alookup_entries ts hnd t hmem
    · intro t ht
      rw [hd2]
      exact hdec t ((sortTasksByID_perm ts).subset ht)
  constructor
  · rw [len_QRep q2 _ hrep, (sortTasksByID_perm ts).length_eq]
  · have hp := pops_QRep _ q2 hrep
    rw [(sortTasksByID_perm ts).length_eq] at hp
    exact hp

end TG

namespace TG

/-- C1 as stated is false: pushing IDs "b" then "a" through `q1` and
constructing `q2` on the same store yields `q2.Len() == 2`, but `q2.Pop()`
returns the task with ID "a" first — stored key order, not the original
insertion order. -/
theorem c1_insertion_order_counterexample :
    Except.map (fun q : Queue => (q.len, pops 2 q))
        (newQueue (pushAll ⟨emptyStore, 1, decTask, [], 0⟩
          [⟨"b", "x"⟩, ⟨"a", "y"⟩]).store 1 decTask) =
      .ok (2, [.ok ⟨"a", "y"⟩, .ok ⟨"b", "x"⟩]) ∧
    (([.ok ⟨"a", "y"⟩, .ok ⟨"b", "x"⟩] : List (Except QErr Task)) ≠
      [.ok ⟨"b", "x"⟩, .ok ⟨"a", "y"⟩]) :=
  ⟨rfl, by simp⟩

/-- Witness for the amended C1 at two concrete tasks pushed in descending ID
order: recovery delivers them in ascending ID order. -/
theorem c1_recovery_keyorder_witness :
    Queue.len ⟨⟨[(("scheduled", "b"), "b/x"), (("scheduled", "a"), "a/y")],
        fun _ => false⟩, 1, decTask, [⟨"a", 1, 0⟩, ⟨"b", 1, 1⟩], 2⟩ = 2 ∧
    pops 3 ⟨⟨[(("scheduled", "b"), "b/x"), (("scheduled", "a"), "a/y")],
        fun _ => false⟩, 1, decTask, [⟨"a", 1, 0⟩, ⟨"b", 1, 1⟩], 2⟩ =
      [.ok ⟨"a", "y"⟩, .ok ⟨"b", "x"⟩, .error .emptyQueue] :=
  c1_recovery_keyorder 1 decTask [⟨"b", "x"⟩, ⟨"a", "y"⟩]
    (by decide)
    (by
      intro t ht
      simp only [List.mem_cons, List.not_mem_nil, or_false] at ht
      rcases ht with rfl | rfl <;> rfl)
    (by decide)
    ⟨emptyStore, 1, decTask, [], 0⟩
    ⟨⟨[(("scheduled", "b"), "b/x"), (("scheduled", "a"), "a/y")],
        fun _ => false⟩, 1, decTask, [⟨"a", 1, 0⟩, ⟨"b", 1, 1⟩], 2⟩
    rfl rfl

end TG

namespace TG

theorem popIdx_ne_none (a : Handle) (as : List Handle) :
    popIdx (a :: as) ≠ none := by
  cases has : popIdx as with
  | none => simp [popIdx, has]
  | some pr =>
    obtain ⟨h', rest'⟩ := pr
    by_cases hb : h'.before a
    · simp [popIdx, has, hb]
    · simp [popIdx, has, hb]

/-- The handle removed by pop-maximum together with the remainder is a
permutation of the index. -/
theorem popIdx_perm : ∀ (l : List Handle) (h : Handle) (rest : List Handle),
    popIdx l = some (h, rest) → List.Perm l (h :: rest) := by
  intro l
  induction l with
  | nil => intro h rest hc; cases hc
  | cons a as ih =>
    intro h rest hc
    cases has : popIdx as with
    | none =>
      cases as with
      | nil =>
        rw [show popIdx [a] = some (a, []) from rfl] at hc
        cases hc
        rfl
      | cons b bs => exact absurd has (popIdx_ne_none b bs)
    | some pr =>
      obtain ⟨h', rest'⟩ := pr
      have hperm := ih h' rest' has
      rw [show popIdx (a :: as) =
          if h'.before a then some (h', a :: rest') else some (a, as) from by
        simp [popIdx, has]] at hc
      by_cases hb : h'.before a
      · rw [if_pos hb] at hc
        cases hc
        exact (hperm.cons a).trans (List.Perm.swap h a rest')
      · rw [if_neg hb] at hc
        cases hc
        rfl

theorem insByID_perm (e : SKey × String) :
    ∀ l : List (SKey × String), List.Perm (insByID e l) (e :: l) := by
  intro l
  induction l with
  | nil => rfl
  | cons e' rest ih =>
    by_cases h : strLe e.1.2 e'.1.2
    · simp [insByID, h]
    · simp only [insByID, h, if_false]
      exact (ih.cons e').trans (List.Perm.swap e e' rest)

theorem sortByID_perm : ∀ l : List (SKey × String), List.Perm (sortByID l) l := by
  intro l
  induction l with
  | nil => rfl
  | cons e rest ih =>
    exact (insByID_perm e (sortByID rest)).trans (ih.cons e)

theorem alookup_some_mem {κ α : Type} [DecidableEq κ] :
    ∀ (l : List (κ × α)) (k : κ) (v : α), alookup l k = some v → (k, v) ∈ l := by
  intro l
  induction l with
  | nil => intro k v h; cases h
  | cons a rest ih =>
    obtain ⟨k', v'⟩ := a
    intro k v h
    by_cases hk : k' = k
    · subst hk
      have hl : alookup ((k', v') :: rest) k' = some v' := by simp [alookup]
      rw [hl] at h
      injection h with h
      subst h
      exact List.mem_cons_self _ _
    · simp only [alookup, if_neg hk] at h
      exact List.mem_cons_of_mem _ (ih k v h)

theorem alookup_of_mem_nodup {κ α : Type} [DecidableEq κ] :
    ∀ (l : List (κ × α)) (k : κ) (v : α),
      (k, v) ∈ l → (l.map Prod.fst).Nodup → alookup l k = some v := by
  intro l
  induction l with
  | nil => intro k v h _; cases h
  | cons a rest ih =>
    obtain ⟨k', v'⟩ := a
    intro k v h hnd
    simp only [List.map_cons, List.nodup_cons] at hnd
    rcases List.mem_cons.1 h with h1 | h1
    · rw [Prod.mk.injEq] at h1
      obtain ⟨rfl, rfl⟩ := h1
      simp [alookup]
    · have hk : k' ≠ k := by
        intro hh
        subst hh
        exact hnd.1 (List.mem_map.2 ⟨(k', v), h1, rfl⟩)
      simp only [alookup, if_neg hk]
      exact ih k v h1 hnd.2

/-- A successful recovery pass certifies that every scanned record
decodes. -/
theorem recover_ok_all (dec : String → Except QErr Task) (p : Nat) :
    ∀ (entries : List (SKey × String)) (n : Nat) (hs : List Handle),
      recover dec p entries n = .ok hs → ∀ e ∈ entries, ∃ t, dec e.2 = .ok t := by
  intro entries
  induction entries with
  | nil => intro n hs _ e he; cases he
  | cons a rest ih =>
    obtain ⟨k, v⟩ := a
    intro n hs hr e he
    cases hd : dec v with
    | error err => rw [show recover dec p ((k, v) :: rest) n = .error err from by
        simp [recover, hd]] at hr; cases hr
    | ok t =>
      rcases List.mem_cons.1 he with rfl | he'
      · exact ⟨t, hd⟩
      · cases hrest : recover dec p rest (n + 1) with
        | error err =>
          rw [show recover dec p ((k, v) :: rest) n = .error err from by
            simp [recover, hd, hrest]] at hr
          cases hr
        | ok hs' => exact ih (n + 1) hs' hrest e he'

end TG

namespace TG

/-- The cross-subsystem invariant of §3: store keys are unique, Index handle
IDs are unique, a scheduled record exists exactly when a handle with its ID
does, and every stored scheduled record decodes under the queue's
strategy. -/
structure QInv (q : Queue) : Prop where
  wf : (q.store.data.map Prod.fst).Nodup
  hnd : (q.index.map Handle.id).Nodup
  corr : ∀ id : String,
    (∃ v, alookup q.store.data (prefixScheduled, id) = some v) ↔
    (∃ h ∈ q.index, h.id = id)
  decs : ∀ (id v : String),
    alookup q.store.data (prefixScheduled, id) = some v → ∃ t, q.dec v = .ok t

/-- Construction over a well-formed store establishes the invariant. -/
theorem QInv_init (s : Store) (p : Nat) (dec : String → Except QErr Task)
    (q : Queue) (hwf : (s.data.map Prod.fst).Nodup)
    (h : newQueue s p dec = .ok q) : QInv q := by
  obtain ⟨hs, hp, hd, hseqc, hrec⟩ := newQueue_ok s p dec q h
  have hdecall := recover_ok_all dec p _ 0 q.index hrec
  obtain ⟨hs', hrec', hid', hpr', hseq'⟩ :=
    recover_all_ok dec p (s.scan prefixScheduled) 0 hdecall
  have hseq : hs' = q.index := by
    rw [hrec'] at hrec
    cases hrec
    rfl
  subst hseq
  have hperm : List.Perm (s.scan prefixScheduled)
      (s.data.filter (fun e => e.1.1 = prefixScheduled)) := sortByID_perm _
  have hflkeys : ((s.data.filter (fun e => e.1.1 = prefixScheduled)).map
      Prod.fst).Nodup :=
    ((List.filter_sublist _).map Prod.fst).nodup hwf
  refine ⟨?_, ?_, ?_, ?_⟩
  · rw [hs]; exact hwf
  · rw [hid']
    have hpm : List.Perm ((s.scan prefixScheduled).map (fun e => e.1.2))
        (((s.data.filter (fun e => e.1.1 = prefixScheduled)).map
          (fun e => e.1.2))) := hperm.map _
    rw [hpm.nodup_iff]
    have hmm : (s.data.filter (fun e => e.1.1 = prefixScheduled)).map
        (fun e => e.1.2) =
        ((s.data.filter (fun e => e.1.1 = prefixScheduled)).map Prod.fst).map
          Prod.snd := by
      rw [List.map_map]
      rfl
    rw [hmm]
    apply List.Nodup.map_on ?_ hflkeys
    intro x hx y hy hxy
    rcases List.mem_map.1 hx with ⟨ex, hex, rfl⟩
    rcases List.mem_map.1 hy with ⟨ey, hey, rfl⟩
    have hx1 : ex.1.1 = prefixScheduled := by
      have := List.mem_filter.1 hex
      simpa using this.2
    have hy1 : ey.1.1 = prefixScheduled := by
      have := List.mem_filter.1 hey
      simpa using this.2
    have : ex.1.1 = ey.1.1 := by rw [hx1, hy1]
    exact Prod.ext this hxy
  · intro id
    constructor
    · rintro ⟨v, hv⟩
      rw [hs] at hv
      have hmem : ((prefixScheduled, id), v) ∈ s.data := alookup_some_mem _ _ _ hv
      have hfl : ((prefixScheduled, id), v) ∈
          s.data.filter (fun e => e.1.1 = prefixScheduled) :=
        List.mem_filter.2 ⟨hmem, by simp⟩
      have hscanmem : ((prefixScheduled, id), v) ∈ s.scan prefixScheduled :=
        hperm.mem_iff.2 hfl
      have hidmem : id ∈ (s.scan prefixScheduled).map (fun e => e.1.2) :=
        List.mem_map.2 ⟨_, hscanmem, rfl⟩
      rw [← hid'] at hidmem
      rcases List.mem_map.1 hidmem with ⟨h, hh, hid⟩
      exact ⟨h, hh, hid⟩
    · rintro ⟨h, hh, rfl⟩
      have hidmem : h.id ∈ q.index.map Handle.id := List.mem_map.2 ⟨h, hh, rfl⟩
      rw [hid'] at hidmem
      rcases List.mem_map.1 hidmem with ⟨e, he, heid⟩
      have hfl : e ∈ s.data.filter (fun e => e.1.1 = prefixScheduled) :=
        hperm.mem_iff.1 he
      have hmemdata : e ∈ s.data := (List.mem_filter.1 hfl).1
      have he1 : e.1.1 = prefixScheduled := by
        have := List.mem_filter.1 hfl
        simpa using this.2
      have hkey : e.1 = (prefixScheduled, h.id) := Prod.ext he1 heid
      refine ⟨e.2, ?_⟩
      rw [hs, ← hkey]
      exact alookup_of_mem_nodup s.data e.1 e.2 hmemdata hwf
  · intro id v hv
    rw [hs] at hv
    have hmem : ((prefixScheduled, id), v) ∈ s.data := alookup_some_mem _ _ _ hv
    have hfl : ((prefixScheduled, id), v) ∈
        s.data.filter (fun e => e.1.1 = prefixScheduled) :=
      List.mem_filter.2 ⟨hmem, by simp⟩
    have hscanmem : ((prefixScheduled, id), v) ∈ s.scan prefixScheduled :=
      hperm.mem_iff.2 hfl
    obtain ⟨t, ht⟩ := hdecall _ hscanmem
    exact ⟨t, by rw [hd]; exact ht⟩

end TG

namespace TG

/-- A completed Push with an ID not currently in the Index (IDs unique per
instance, §3 invariant 2) and a decodable record preserves the invariant. -/
theorem QInv_push (q : Queue) (t : Task) (hq : QInv q)
    (hfresh : ∀ h ∈ q.index, h.id ≠ t.ID)
    (hdec : q.dec (encTask t) = .ok t) :
    QInv (q.push t).2 := by
  by_cases hid : t.ID = ""
  · simpa [Queue.push, hid] using hq
  by_cases hfp : q.store.failPut (prefixScheduled, t.ID) = true
  · simpa [Queue.push, hid, Store.put, hfp] using hq
  have hfp' : q.store.failPut (prefixScheduled, t.ID) = false :=
    Bool.not_eq_true _ ▸ hfp
  have hpush : q.push t = (.ok (),
      { q with
        store := { q.store with
          data := aset q.store.data (prefixScheduled, t.ID) (encTask t) }
        index := q.index ++ [⟨t.ID, q.priority, q.seqc⟩]
        seqc := q.seqc + 1 }) := by
    simp [Queue.push, hid, Store.put, hfp']
  rw [hpush]
  have hnotin : t.ID ∉ q.index.map Handle.id := by
    intro hmem
    rcases List.mem_map.1 hmem with ⟨h, hh, hhid⟩
    exact hfresh h hh hhid
  refine ⟨?_, ?_, ?_, ?_⟩
  · exact nodup_keys_aset _ _ _ hq.wf
  · simp only [List.map_append, List.map_cons, List.map_nil]
    rw [List.nodup_append]
    exact ⟨hq.hnd, by simp, by
      intro a ha hb
      simp only [List.mem_cons, List.not_mem_nil, or_false] at hb
      subst hb
      exact hnotin ha⟩
  · intro i
    by_cases hidt : i = t.ID
    · constructor
      · intro _
        exact ⟨⟨t.ID, q.priority, q.seqc⟩, by simp, hidt.symm⟩
      · intro _
        refine ⟨encTask t, ?_⟩
        show alookup (aset q.store.data (prefixScheduled, t.ID) (encTask t))
          (prefixScheduled, i) = some (encTask t)
        rw [hidt]
        exact alookup_aset_self _ _ _
    · have hkeyne : (prefixScheduled, t.ID) ≠ (prefixScheduled, i) := by
        intro hcontra
        exact hidt (congrArg Prod.snd hcontra).symm
      constructor
      · rintro ⟨v, hv⟩
        rw [show alookup (aset q.store.data (prefixScheduled, t.ID) (encTask t))
            (prefixScheduled, i) = alookup q.store.data (prefixScheduled, i)
          from alookup_aset_ne _ _ _ _ hkeyne] at hv
        obtain ⟨h, hh, hhid⟩ := (hq.corr i).1 ⟨v, hv⟩
        exact ⟨h, by simp only [List.mem_append]; exact Or.inl hh, hhid⟩
      · rintro ⟨h, hh, rfl⟩
        simp only [List.mem_append, List.mem_singleton] at hh
        rcases hh with hh | hh
        · obtain ⟨v, hv⟩ := (hq.corr h.id).2 ⟨h, hh, rfl⟩
          refine ⟨v, ?_⟩
          rw [show alookup (aset q.store.data (prefixScheduled, t.ID) (encTask t))
              (prefixScheduled, h.id) = alookup q.store.data (prefixScheduled, h.id)
            from alookup_aset_ne _ _ _ _ (by
              intro hcontra
              exact hidt (congrArg Prod.snd hcontra).symm)]
          exact hv
        · subst hh
          exact absurd rfl hidt
  · intro i v hv
    by_cases hidt : i = t.ID
    · rw [hidt] at hv
      rw [show alookup (aset q.store.data (prefixScheduled, t.ID) (encTask t))
          (prefixScheduled, t.ID) = some (encTask t) from alookup_aset_self _ _ _] at hv
      injection hv with hv
      subst hv
      exact ⟨t, hdec⟩
    · have hkeyne : (prefixScheduled, t.ID) ≠ (prefixScheduled, i) := by
        intro hcontra
        exact hidt (congrArg Prod.snd hcontra).symm
      rw [show alookup (aset q.store.data (prefixScheduled, t.ID) (encTask t))
          (prefixScheduled, i) = alookup q.store.data (prefixScheduled, i)
        from alookup_aset_ne _ _ _ _ hkeyne] at hv
      exact hq.decs i v hv

/-- A completed Pop preserves the invariant. -/
theorem QInv_pop (q : Queue) (hq : QInv q) : QInv (q.pop).2 := by
  cases hpi : popIdx q.index with
  | none => simpa [Queue.pop, hpi] using hq
  | some pr =>
    obtain ⟨h, rest⟩ := pr
    have hperm : List.Perm q.index (h :: rest) := popIdx_perm _ _ _ hpi
    have hidsperm : List.Perm (q.index.map Handle.id)
        (h.id :: rest.map Handle.id) := by
      simpa using hperm.map Handle.id
    have hmem : h ∈ q.index := hperm.mem_iff.2 (List.mem_cons_self _ _)
    obtain ⟨v, hv⟩ := (hq.corr h.id).2 ⟨h, hmem, rfl⟩
    obtain ⟨t, ht⟩ := hq.decs h.id v hv
    have hpop : q.pop = (.ok t,
        { q with
          index := rest
          store := q.store.del (prefixScheduled, h.id) }) := by
      simp [Queue.pop, hpi, Store.get, hv, ht]
    rw [hpop]
    dsimp only [Store.del]
    have hnd' : (h.id :: rest.map Handle.id).Nodup := hidsperm.nodup_iff.1 hq.hnd
    have hheadnotin : h.id ∉ rest.map Handle.id := (List.nodup_cons.1 hnd').1
    refine ⟨?_, ?_, ?_, ?_⟩
    · exact nodup_keys_aerase _ _ hq.wf
    · exact (List.nodup_cons.1 hnd').2
    · intro i
      by_cases hidt : i = h.id
      · constructor
        · rintro ⟨v', hv'⟩
          rw [hidt] at hv'
          rw [show alookup (aerase q.store.data (prefixScheduled, h.id))
              (prefixScheduled, h.id) = none from
            alookup_aerase_self _ _ hq.wf] at hv'
          cases hv'
        · rintro ⟨x, hx, rfl⟩
          exact absurd (List.mem_map.2 ⟨x, hx, hidt⟩) hheadnotin
      · have hkeyne : (prefixScheduled, h.id) ≠ (prefixScheduled, i) := by
          intro hcontra
          exact hidt (congrArg Prod.snd hcontra).symm
        constructor
        · rintro ⟨v', hv'⟩
          rw [show alookup (aerase q.store.data (prefixScheduled, h.id))
              (prefixScheduled, i) = alookup q.store.data (prefixScheduled, i)
            from alookup_aerase_ne _ _ _ hkeyne] at hv'
          obtain ⟨x, hx, hxid⟩ := (hq.corr i).1 ⟨v', hv'⟩
          have : x ∈ h :: rest := hperm.mem_iff.1 hx
          rcases List.mem_cons.1 this with rfl | hxr
          · exact absurd hxid.symm hidt
          · exact ⟨x, hxr, hxid⟩
        · rintro ⟨x, hx, rfl⟩
          have hxq : x ∈ q.index := hperm.mem_iff.2 (List.mem_cons_of_mem _ hx)
          obtain ⟨v', hv'⟩ := (hq.corr x.id).2 ⟨x, hxq, rfl⟩
          refine ⟨v', ?_⟩
          rw [show alookup (aerase q.store.data (prefixScheduled, h.id))
              (prefixScheduled, x.id) = alookup q.store.data (prefixScheduled, x.id)
            from alookup_aerase_ne _ _ _ hkeyne]
          exact hv'
    · intro i v' hv'
      by_cases hidt : i = h.id
      · rw [hidt] at hv'
        rw [show alookup (aerase q.store.data (prefixScheduled, h.id))
            (prefixScheduled, h.id) = none from
          alookup_aerase_self _ _ hq.wf] at hv'
        cases hv'
      · have hkeyne : (prefixScheduled, h.id) ≠ (prefixScheduled, i) := by
          intro hcontra
          exact hidt (congrArg Prod.snd hcontra).symm
        rw [show alookup (aerase q.store.data (prefixScheduled, h.id))
            (prefixScheduled, i) = alookup q.store.data (prefixScheduled, i)
          from alookup_aerase_ne _ _ _ hkeyne] at hv'
        exact hq.decs i v' hv'

end TG

namespace TG

/-- Modelled from the spec: queue states reachable by completed Push and Pop
operations from a recovered initial state (§4.4) over a well-formed store,
with pushes respecting §3 invariant 2 (IDs unique per Queue instance — the
caller de-duplicates) and §6 (the injected decode strategy inverts the
canonical encoding of every pushed task). -/
inductive Reach : Queue → Prop where
  | init (s : Store) (p : Nat) (dec : String → Except QErr Task) (q : Queue) :
      (s.data.map Prod.fst).Nodup → newQueue s p dec = .ok q → Reach q
  | push (q : Queue) (t : Task) : Reach q →
      (∀ h ∈ q.index, h.id ≠ t.ID) →
      q.dec (encTask t) = .ok t →
      Reach (q.push t).2
  | pop (q : Queue) : Reach q → Reach (q.pop).2

theorem QInv_reach (q : Queue) (h : Reach q) : QInv q := by
  induction h with
  | init s p dec q hwf hq => exact QInv_init s p dec q hwf hq
  | push q t _ hfresh hdec ih => exact QInv_push q t ih hfresh hdec
  | pop q _ ih => exact QInv_pop q ih

/-- C6 (amended): in every queue state reachable by completed Push and Pop
operations from a recovered initial state — with Push used as §3 invariant 2
directs, each pushed ID not already in the Index — a Task record exists
under `("scheduled", ID)` in the durable store if and only if a handle with
that ID exists in the In-Memory Index. -/
theorem c6_store_index_correspondence (q : Queue) (hr : Reach q)
    (id : String) :
    (∃ v, q.store.get (prefixScheduled, id) = .ok v) ↔
    (∃ h ∈ q.index, h.id = id) := by
  have hinv := QInv_reach q hr
  have hbridge : (∃ v, q.store.get (prefixScheduled, id) = .ok v) ↔
      (∃ v, alookup q.store.data (prefixScheduled, id) = some v) := by
    unfold Store.get
    cases hl : alookup q.store.data (prefixScheduled, id) <;> simp
  rw [hbridge]
  exact hinv.corr id

/-- The state after pushing the same ID twice and popping once. -/
def dupState : Queue :=
  (Queue.pop (pushAll ⟨emptyStore, 1, decTask, [], 0⟩
    [⟨"x", "1"⟩, ⟨"x", "2"⟩])).2

/-- C6 as stated is false without the ID-uniqueness proviso: pushing the
same ID twice (allowed, §3 invariant 2) and popping once leaves a handle
with ID "x" in the Index while the store no longer holds a record under
`("scheduled", "x")`. -/
theorem c6_correspondence_counterexample :
    ¬ ((∃ v, dupState.store.get (prefixScheduled, "x") = .ok v) ↔
       (∃ h ∈ dupState.index, h.id = "x")) := by
  intro hiff
  have hidx : dupState.index = [⟨"x", 1, 1⟩] := rfl
  obtain ⟨v, hv⟩ := hiff.2 ⟨⟨"x", 1, 1⟩, by rw [hidx]; exact List.mem_singleton.2 rfl, rfl⟩
  have hget : dupState.store.get (prefixScheduled, "x") = .error .notFound := rfl
  rw [hget] at hv
  cases hv

/-- Witness for the amended C6 at a freshly recovered queue over the empty
store. -/
theorem c6_store_index_correspondence_witness :
    (∃ v, (Queue.store ⟨emptyStore, 1, decTask, [], 0⟩).get
      (prefixScheduled, "z") = .ok v) ↔
    (∃ h ∈ Queue.index ⟨emptyStore, 1, decTask, [], 0⟩, h.id = "z") :=
  c6_store_index_correspondence ⟨emptyStore, 1, decTask, [], 0⟩
    (Reach.init emptyStore 1 decTask _ (by simp [emptyStore]) rfl) "z"

end TG

namespace TG

theorem splitOnChar_ne_nil (sep : Char) : ∀ l : List Char, splitOnChar sep l ≠ [] := by
  intro l
  cases l with
  | nil => simp [splitOnChar]
  | cons c rest =>
    cases hs : splitOnChar sep rest with
    | nil => simp [splitOnChar, hs]
    | cons g gs =>
      by_cases hc : c = sep
      · simp [splitOnChar, hs, hc]
      · simp [splitOnChar, hs, hc]

theorem splitOnChar_no_sep (sep : Char) :
    ∀ l : List Char, sep ∉ l → splitOnChar sep l = [l] := by
  intro l
  induction l with
  | nil => intro _; rfl
  | cons c rest ih =>
    intro h
    have hc : c ≠ sep := fun hh => h (hh ▸ List.mem_cons_self _ _)
    have hrest : sep ∉ rest := fun hh => h (List.mem_cons_of_mem _ hh)
    rw [show splitOnChar sep (c :: rest) =
        match splitOnChar sep rest with
        | [] => [[]]
        | g :: gs => if c = sep then [] :: g :: gs else (c :: g) :: gs from rfl]
    rw [ih hrest]
    simp [hc]

theorem splitOnChar_append_sep (sep : Char) :
    ∀ (p rest : List Char), sep ∉ p →
      splitOnChar sep (p ++ sep :: rest) = p :: splitOnChar sep rest := by
  intro p
  induction p with
  | nil =>
    intro rest _
    cases hs : splitOnChar sep rest with
    | nil => exact absurd hs (splitOnChar_ne_nil sep rest)
    | cons g gs =>
      rw [show splitOnChar sep ([] ++ sep :: rest) =
          match splitOnChar sep rest with
          | [] => [[]]
          | g :: gs => if sep = sep then [] :: g :: gs else (sep :: g) :: gs from rfl]
      rw [hs]
      simp
  | cons c p' ih =>
    intro rest h
    have hc : c ≠ sep := fun hh => h (hh ▸ List.mem_cons_self _ _)
    have hp' : sep ∉ p' := fun hh => h (List.mem_cons_of_mem _ hh)
    rw [show splitOnChar sep ((c :: p') ++ sep :: rest) =
        match splitOnChar sep (p' ++ sep :: rest) with
        | [] => [[]]
        | g :: gs => if c = sep then [] :: g :: gs else (c :: g) :: gs from rfl]
    rw [ih rest hp']
    simp [hc]

theorem splitOnChar_joinChar (sep : Char) :
    ∀ parts : List (List Char), parts ≠ [] → (∀ p ∈ parts, sep ∉ p) →
      splitOnChar sep (joinChar sep parts) = parts := by
  intro parts
  induction parts with
  | nil => intro h _; exact absurd rfl h
  | cons p rest ih =>
    intro _ hall
    cases rest with
    | nil =>
      rw [show joinChar sep [p] = p from rfl]
      exact splitOnChar_no_sep sep p (hall p (List.mem_cons_self _ _))
    | cons p2 ps =>
      rw [show joinChar sep (p :: p2 :: ps) = p ++ sep :: joinChar sep (p2 :: ps)
        from rfl]
      rw [splitOnChar_append_sep sep p _ (hall p (List.mem_cons_self _ _))]
      rw [ih (by simp) (fun x hx => hall x (List.mem_cons_of_mem _ hx))]

theorem unpackStep_malformed (acc : List (List Char × List Char))
    (b : List Char) (h : (splitOnChar '=' b).length ≠ 2) :
    unpackStep acc b = acc := by
  unfold unpackStep
  cases hs : splitOnChar '=' b with
  | nil => rfl
  | cons x xs =>
    cases xs with
    | nil => rfl
    | cons y ys =>
      cases ys with
      | nil => exact absurd (by rw [hs]; rfl) h
      | cons z zs => rfl

theorem unpackStep_entry (acc : List (List Char × List Char))
    (kv : List Char × List Char) (hk : '=' ∉ kv.1) (hv : '=' ∉ kv.2) :
    unpackStep acc (partOf kv) = aset acc kv.1 kv.2 := by
  unfold unpackStep partOf
  rw [splitOnChar_append_sep _ _ _ hk, splitOnChar_no_sep _ _ hv]

theorem foldl_aset_append {κ α : Type} [DecidableEq κ] :
    ∀ (m acc : List (κ × α)),
      (∀ e ∈ m, alookup acc e.1 = none) → (m.map Prod.fst).Nodup →
      m.foldl (fun a e => aset a e.1 e.2) acc = acc ++ m := by
  intro m
  induction m with
  | nil => intro acc _ _; simp
  | cons e rest ih =>
    obtain ⟨k, v⟩ := e
    intro acc hab hnd
    simp only [List.map_cons, List.nodup_cons] at hnd
    have hset : aset acc k v = acc ++ [(k, v)] :=
      aset_of_lookup_none _ _ _ (hab (k, v) (List.mem_cons_self _ _))
    rw [List.foldl_cons]
    show List.foldl (fun a e => aset a e.1 e.2) (aset acc k v) rest = acc ++ (k, v) :: rest
    rw [hset, ih (acc ++ [(k, v)])
      (by
        intro e' he'
        rw [alookup_append_eq _ _ _ (hab e' (List.mem_cons_of_mem _ he'))]
        have hne : k ≠ e'.1 := by
          intro hh
          exact hnd.1 (List.mem_map.2 ⟨e', he', hh.symm⟩)
        simp [alookup, hne])
      hnd.2]
    simp

/-- Core of the round trip: processing the packed entries of a map with
distinct, separator-free keys and values rebuilds exactly that map. -/
theorem unpack_parts (m : List (List Char × List Char))
    (heq : ∀ kv ∈ m, '=' ∉ kv.1 ∧ '=' ∉ kv.2)
    (hnd : (m.map Prod.fst).Nodup) :
    (m.map partOf).foldl unpackStep [] = m := by
  rw [List.foldl_map]
  rw [List.foldl_ext _ (fun a kv => aset a kv.1 kv.2) []
    (fun a kv hkv => unpackStep_entry a kv (heq kv hkv).1 (heq kv hkv).2)]
  rw [foldl_aset_append m [] (fun e _ => rfl) hnd]
  rfl

end TG

namespace TG

/-- C10: for a parameter map whose keys and values contain neither `|` nor
`=`, `unpackParams` applied to the packed string produced inside `ToEnvVars`
returns the map itself; and a packed entry that does not split into exactly
two parts on `=` is silently dropped by `unpackParams` — the surrounding
entries still unpack to the map — rather than reported as an error. -/
theorem c10_pack_unpack_roundtrip (m : List (List Char × List Char))
    (hcond : ∀ kv ∈ m, ('|' ∉ kv.1 ∧ '|' ∉ kv.2) ∧ ('=' ∉ kv.1 ∧ '=' ∉ kv.2))
    (hnd : (m.map Prod.fst).Nodup) :
    unpackParams (packParams m) = m ∧
    (∀ (b : List Char) (m1 m2 : List (List Char × List Char)),
      '|' ∉ b → (splitOnChar '=' b).length ≠ 2 → m = m1 ++ m2 →
      unpackParams (joinChar '|' (m1.map partOf ++ b :: m2.map partOf)) = m) := by
  have hpipefree : ∀ kv ∈ m, '|' ∉ partOf kv := by
    intro kv hkv hmem
    unfold partOf at hmem
    rcases List.mem_append.1 hmem with h1 | h1
    · exact (hcond kv hkv).1.1 h1
    · rcases List.mem_cons.1 h1 with h2 | h2
      · cases h2
      · exact (hcond kv hkv).1.2 h2
  constructor
  · cases hm : m with
    | nil => rfl
    | cons kv rest =>
      unfold unpackParams packParams
      rw [splitOnChar_joinChar '|' _ (by simp) (by
        intro p hp
        rcases List.mem_map.1 hp with ⟨kv', hkv', rfl⟩
        exact hpipefree kv' (hm ▸ hkv'))]
      exact unpack_parts _ (fun kv' h => (hcond kv' (hm ▸ h)).2) (hm ▸ hnd)
  · intro b m1 m2 hb hlen hm
    subst hm
    unfold unpackParams
    rw [splitOnChar_joinChar '|' _ (by simp) (by
      intro p hp
      rcases List.mem_append.1 hp with h1 | h1
      · rcases List.mem_map.1 h1 with ⟨kv', hkv', rfl⟩
        exact hpipefree kv' (List.mem_append.2 (Or.inl hkv'))
      · rcases List.mem_cons.1 h1 with rfl | h2
        · exact hb
        · rcases List.mem_map.1 h2 with ⟨kv', hkv', rfl⟩
          exact hpipefree kv' (List.mem_append.2 (Or.inr hkv')))]
    rw [List.foldl_append, List.foldl_cons, unpackStep_malformed _ b hlen,
      ← List.foldl_append, ← List.map_append]
    exact unpack_parts (m1 ++ m2) (fun kv' h => (hcond kv' h).2) hnd

/-- Witness for C10 at a concrete two-entry map, with a malformed entry
"junk" spliced into the packed string for the second part. -/
theorem c10_pack_unpack_roundtrip_witness :
    unpackParams (packParams [("a".data, "1".data), ("bc".data, "2".data)]) =
      [("a".data, "1".data), ("bc".data, "2".data)] ∧
    unpackParams (joinChar '|' ([("a".data, "1".data)].map partOf ++
        "junk".data :: [("bc".data, "2".data)].map partOf)) =
      [("a".data, "1".data), ("bc".data, "2".data)] :=
  ⟨(c10_pack_unpack_roundtrip [("a".data, "1".data), ("bc".data, "2".data)]
      (by decide) (by decide)).1,
    (c10_pack_unpack_roundtrip [("a".data, "1".data), ("bc".data, "2".data)]
      (by decide) (by decide)).2 "junk".data
      [("a".data, "1".data)] [("bc".data, "2".data)]
      (by decide) (by decide) rfl⟩

end TG
